import Mathlib

/-!
Shallow embedding of `src/analysis/likelihood.py` (class `Likelihood`) from the
ugali repository, together with proofs about the claims on its behaviour.

The Python code computes with IEEE-754 doubles via numpy.  Division by zero,
`0/0`, and `log` of non-positive numbers produce `inf`/`-inf`/`nan` values that
several claims hinge on, so machine floats are modelled by the type `NumF`
below: a real number (`fin x`), positive infinity (`pinf`), negative infinity
(`ninf`), or not-a-number (`nan`), with the numpy/IEEE arithmetic rules for the
operations the likelihood code performs.  (Rounding is not modelled; finite
values are exact reals.  Signed zero is collapsed to `+0`, which is the only
zero numpy produces in the code paths considered here.)
-/

inductive NumF where
  | fin : ℝ → NumF
  | pinf : NumF
  | ninf : NumF
  | nan : NumF

namespace NumF

/-- IEEE addition on modelled floats. -/
def add : NumF → NumF → NumF
  | nan, _ => nan
  | _, nan => nan
  | fin x, fin y => fin (x + y)
  | fin _, pinf => pinf
  | pinf, fin _ => pinf
  | fin _, ninf => ninf
  | ninf, fin _ => ninf
  | pinf, pinf => pinf
  | ninf, ninf => ninf
  | pinf, ninf => nan
  | ninf, pinf => nan

/-- IEEE negation. -/
def neg : NumF → NumF
  | nan => nan
  | fin x => fin (-x)
  | pinf => ninf
  | ninf => pinf

/-- IEEE subtraction, `a - b = a + (-b)`. -/
def sub (a b : NumF) : NumF := add a (neg b)

/-- IEEE multiplication; `0 * inf = nan`. -/
noncomputable def mul : NumF → NumF → NumF
  | nan, _ => nan
  | _, nan => nan
  | fin x, fin y => fin (x * y)
  | fin x, pinf => if 0 < x then pinf else if x < 0 then ninf else nan
  | pinf, fin x => if 0 < x then pinf else if x < 0 then ninf else nan
  | fin x, ninf => if 0 < x then ninf else if x < 0 then pinf else nan
  | ninf, fin x => if 0 < x then ninf else if x < 0 then pinf else nan
  | pinf, pinf => pinf
  | ninf, ninf => pinf
  | pinf, ninf => ninf
  | ninf, pinf => ninf

/-- IEEE division with numpy conventions: `x/0` is `±inf` for `x ≠ 0`
(zero treated as `+0`), `0/0` is `nan`, `inf/inf` is `nan`. -/
noncomputable def div : NumF → NumF → NumF
  | nan, _ => nan
  | _, nan => nan
  | fin x, fin y =>
      if y = 0 then (if 0 < x then pinf else if x < 0 then ninf else nan)
      else fin (x / y)
  | fin _, pinf => fin 0
  | fin _, ninf => fin 0
  | pinf, fin y => if y < 0 then ninf else pinf
  | ninf, fin y => if y < 0 then pinf else ninf
  | pinf, pinf => nan
  | pinf, ninf => nan
  | ninf, pinf => nan
  | ninf, ninf => nan

/-- numpy.log on modelled floats: real log for positive finite arguments,
`log 0 = -inf`, `log` of a negative number is `nan`, `log inf = inf`. -/
noncomputable def log : NumF → NumF
  | nan => nan
  | pinf => pinf
  | ninf => nan
  | fin x => if 0 < x then fin (Real.log x) else if x = 0 then ninf else nan

/-- numpy.fabs. -/
def fabs : NumF → NumF
  | nan => nan
  | pinf => pinf
  | ninf => pinf
  | fin x => fin |x|

/-- IEEE `<` comparison: any comparison with `nan` is false. -/
noncomputable def lt : NumF → NumF → Bool
  | nan, _ => false
  | _, nan => false
  | fin x, fin y => decide (x < y)
  | fin _, pinf => true
  | pinf, _ => false
  | ninf, ninf => false
  | ninf, _ => true
  | fin _, ninf => false

/-- Whether a value is NaN (numpy.isnan). -/
def isNan : NumF → Bool
  | nan => true
  | _ => false

/-- Python truthiness of a float, as tested by `numpy.any`: anything other
than (finite) zero is truthy; `nan` and infinities are truthy. -/
noncomputable def truthy : NumF → Bool
  | fin x => !(decide (x = 0))
  | _ => true

/-- numpy.sum over an array (left fold from `0`). -/
noncomputable def sumF (l : List NumF) : NumF := l.foldl add (fin 0)

/-- Pairwise maximum with numpy.max semantics (`nan` propagates). -/
noncomputable def maxP (a b : NumF) : NumF :=
  if isNan a || isNan b then nan else if lt a b then b else a

/-- numpy.max of a nonempty array; numpy raises on an empty array, here the
empty case (never reached by the code modelled) returns `nan`. -/
noncomputable def maxF : List NumF → NumF
  | [] => nan
  | x :: xs => xs.foldl maxP x

end NumF

/-! Basic evaluation lemmas for the float model. -/

lemma NumF.add_fin_fin (x y : ℝ) : NumF.add (NumF.fin x) (NumF.fin y) = NumF.fin (x + y) := rfl

lemma NumF.nan_add (b : NumF) : NumF.add NumF.nan b = NumF.nan := by cases b <;> rfl

lemma NumF.add_nan (a : NumF) : NumF.add a NumF.nan = NumF.nan := by cases a <;> rfl

lemma NumF.neg_fin (x : ℝ) : NumF.neg (NumF.fin x) = NumF.fin (-x) := rfl

lemma NumF.sub_fin_fin (x y : ℝ) : NumF.sub (NumF.fin x) (NumF.fin y) = NumF.fin (x - y) := by
  simp [NumF.sub, NumF.neg, NumF.add, sub_eq_add_neg]

lemma NumF.sub_nan (a : NumF) : NumF.sub a NumF.nan = NumF.nan := by cases a <;> rfl

lemma NumF.nan_sub (b : NumF) : NumF.sub NumF.nan b = NumF.nan := by cases b <;> rfl

lemma NumF.mul_fin_fin (x y : ℝ) : NumF.mul (NumF.fin x) (NumF.fin y) = NumF.fin (x * y) := by
  simp [NumF.mul]

lemma NumF.nan_mul (b : NumF) : NumF.mul NumF.nan b = NumF.nan := by cases b <;> simp [NumF.mul]

lemma NumF.mul_nan (a : NumF) : NumF.mul a NumF.nan = NumF.nan := by cases a <;> simp [NumF.mul]

lemma NumF.nan_div (b : NumF) : NumF.div NumF.nan b = NumF.nan := by cases b <;> simp [NumF.div]

lemma NumF.div_nan (a : NumF) : NumF.div a NumF.nan = NumF.nan := by cases a <;> simp [NumF.div]

lemma NumF.div_fin_fin {y : ℝ} (x : ℝ) (hy : y ≠ 0) :
    NumF.div (NumF.fin x) (NumF.fin y) = NumF.fin (x / y) := by
  simp [NumF.div, hy]

lemma NumF.log_nan : NumF.log NumF.nan = NumF.nan := rfl

lemma NumF.log_fin_pos {x : ℝ} (hx : 0 < x) :
    NumF.log (NumF.fin x) = NumF.fin (Real.log x) := by
  simp [NumF.log, hx]

lemma NumF.lt_nan_left (b : NumF) : NumF.lt NumF.nan b = false := by cases b <;> rfl

lemma NumF.lt_nan_right (a : NumF) : NumF.lt a NumF.nan = false := by cases a <;> rfl

lemma NumF.lt_fin_fin (x y : ℝ) : NumF.lt (NumF.fin x) (NumF.fin y) = decide (x < y) := rfl

lemma NumF.isNan_fin (x : ℝ) : NumF.isNan (NumF.fin x) = false := rfl

lemma NumF.truthy_fin (x : ℝ) : NumF.truthy (NumF.fin x) = !(decide (x = 0)) := rfl

/-!
Embedding of the likelihood functions of `Likelihood` (likelihood.py).

The per-object arrays `u` (signal weight) and `b` (background weight) are
lists of modelled floats; `f` (expected observable signal fraction) and the
richness are modelled floats.  The methods read `self.u`, `self.b`, `self.f`
as instance state; here they are explicit arguments.
-/

/-- Membership probability of one object, `p = (richness*u)/((richness*u)+b)`
(likelihood.py lines 449 and 488). -/
noncomputable def pValue (richness u b : NumF) : NumF :=
  NumF.div (NumF.mul richness u) (NumF.add (NumF.mul richness u) b)

/-- The per-object membership probability vector at a given richness
(likelihood.py line 488, elementwise over the catalog). -/
noncomputable def pVector (u b : List NumF) (richness : NumF) : List NumF :=
  List.zipWith (fun ui bi => pValue richness ui bi) u b

/-- `Likelihood.logLikelihoodSimple` (likelihood.py lines 445-450):
`-1 * sum(log(1 - p)) - f * richness` with `p` elementwise. -/
noncomputable def logLikelihoodSimple (u b : List NumF) (f richness : NumF) : NumF :=
  NumF.sub
    (NumF.neg (NumF.sumF
      ((pVector u b richness).map (fun p => NumF.log (NumF.sub (NumF.fin 1) p)))))
    (NumF.mul f richness)

/-- The same formula read over exact reals (the mathematical value the float
code approximates, used to state hypotheses about the shape of the
log-likelihood curve). -/
noncomputable def logLikelihoodReal (us bs : List ℝ) (fr r : ℝ) : ℝ :=
  -((List.zipWith (fun ui bi => Real.log (1 - (r * ui) / (r * ui + bi))) us bs).sum)
    - fr * r

lemma NumF.sumF_map_fin (l : List ℝ) : NumF.sumF (l.map NumF.fin) = NumF.fin l.sum := by
  have h : ∀ (a : ℝ), (l.map NumF.fin).foldl NumF.add (NumF.fin a) = NumF.fin (a + l.sum) := by
    induction l with
    | nil => intro a; simp
    | cons x xs ih =>
        intro a
        simp only [List.map_cons, List.foldl_cons, NumF.add_fin_fin, List.sum_cons, ih]
        ring_nf
  simpa using h 0

/-- On real-valued inputs with nonnegative signal weights, strictly positive
background weights and nonnegative richness, the float computation of
`logLikelihoodSimple` is exact: it returns the real value. -/
lemma logLikelihoodSimple_fin (us bs : List ℝ) (fr r : ℝ)
    (hu : ∀ x ∈ us, 0 ≤ x) (hb : ∀ x ∈ bs, 0 < x) (hr : 0 ≤ r) :
    logLikelihoodSimple (us.map NumF.fin) (bs.map NumF.fin) (NumF.fin fr) (NumF.fin r)
      = NumF.fin (logLikelihoodReal us bs fr r) := by
  have hzip : (pVector (us.map NumF.fin) (bs.map NumF.fin) (NumF.fin r)).map
        (fun p => NumF.log (NumF.sub (NumF.fin 1) p))
      = (List.zipWith (fun ui bi => Real.log (1 - (r * ui) / (r * ui + bi))) us bs).map
          NumF.fin := by
    unfold pVector
    induction us generalizing bs with
    | nil => simp
    | cons x xs ih =>
        cases bs with
        | nil => simp
        | cons y ys =>
            have hx : 0 ≤ x := hu x (by simp)
            have hy : 0 < y := hb y (by simp)
            have hden : 0 < r * x + y := by positivity
            have hplt : (r * x) / (r * x + y) < 1 := by
              rw [div_lt_one hden]; nlinarith
            simp only [List.map_cons, List.zipWith_cons_cons, List.cons.injEq]
            constructor
            · show NumF.log (NumF.sub (NumF.fin 1) (pValue (NumF.fin r) (NumF.fin x)
                (NumF.fin y))) = _
              unfold pValue
              rw [NumF.mul_fin_fin, NumF.add_fin_fin, NumF.div_fin_fin _ (ne_of_gt hden),
                NumF.sub_fin_fin, NumF.log_fin_pos (by linarith)]
            · exact ih ys (fun a ha => hu a (by simp [ha]))
                (fun a ha => hb a (by simp [ha]))
  unfold logLikelihoodSimple logLikelihoodReal
  rw [hzip, NumF.sumF_map_fin, NumF.neg_fin, NumF.mul_fin_fin, NumF.sub_fin_fin]

/-- At strictly positive background weights the real log-likelihood vanishes
at richness `0` (each term is `log 1`). -/
lemma logLikelihoodReal_zero (us bs : List ℝ) (fr : ℝ) :
    logLikelihoodReal us bs fr 0 = 0 := by
  unfold logLikelihoodReal
  have h : (List.zipWith (fun ui bi => Real.log (1 - (0 * ui) / (0 * ui + bi))) us bs)
      = List.replicate (min us.length bs.length) 0 := by
    rw [List.eq_replicate_iff]
    constructor
    · simp [List.length_zipWith]
    · intro x hx
      rcases List.mem_iff_get.mp hx with ⟨n, hn⟩
      simp only [List.get_zipWith] at hn
      rw [← hn]; simp
  rw [h]; simp

/-- NaN richness propagates through `logLikelihoodSimple` (every arithmetic
step is NaN-poisoned). -/
lemma logLikelihoodSimple_nan (u b : List NumF) (f : NumF) :
    logLikelihoodSimple u b f NumF.nan = NumF.nan := by
  unfold logLikelihoodSimple
  rw [NumF.mul_nan, NumF.sub_nan]

/-!
Embedding of `Likelihood.maximizeLogLikelihood` (likelihood.py lines 452-489).

The quadratic fit comes from `ugali.utils.parabola.Parabola`, whose source is
not part of the analyzed tree; per the spec it "fits a quadratic to
(richness, 2 x log-likelihood) samples and extracts the vertex".  The vertex
extraction is therefore a parameter `vtx : List NumF -> List NumF -> NumF`
(taking the richness samples and the doubled log-likelihood samples, the two
arrays passed to `Parabola` at line 477); every theorem below quantifies over
it, so the results hold for any actual implementation of `Parabola.vertex_x`.

The `while not found_maximum` loop has no iteration cap in the source (the
`iteration` counter at line 485 is incremented but never compared to any
bound); the loop is modelled with an explicit fuel argument: `none` means the
source loop has not terminated within that many iterations.
-/

/-- The seed richness array (line 466-468): richness corresponding to 0, 1,
and 10 observable stars. -/
noncomputable def seedRichness (f : NumF) : List NumF :=
  [NumF.fin 0, NumF.div (NumF.fin 1) f, NumF.div (NumF.fin 10) f]

/-- The seed log-likelihood array (lines 469-471); the first entry is the
literal `0.`, the others are computed. -/
noncomputable def seedLogLikelihood (u b : List NumF) (f : NumF) : List NumF :=
  [NumF.fin 0,
   logLikelihoodSimple u b f (NumF.div (NumF.fin 1) f),
   logLikelihoodSimple u b f (NumF.div (NumF.fin 10) f)]

/-- One `while not found_maximum` iteration (lines 476-485), recursing on
fuel.  Returns the final `(richness, log_likelihood)` sample arrays. -/
noncomputable def maxLLGo (vtx : List NumF → List NumF → NumF)
    (u b : List NumF) (f tol : NumF) :
    ℕ → List NumF → List NumF → Option (List NumF × List NumF)
  | 0, _, _ => none
  | n + 1, richness, loglike =>
      let v := vtx richness (loglike.map (fun x => NumF.mul (NumF.fin 2) x))
      if NumF.lt v (NumF.fin 0) then some (richness, loglike)
      else
        let newll := logLikelihoodSimple u b f v
        let richness' := richness ++ [v]
        let loglike' := loglike ++ [newll]
        if NumF.lt (NumF.fabs (NumF.sub newll (NumF.maxF loglike))) tol then
          some (richness', loglike')
        else maxLLGo vtx u b f tol n richness' loglike'

/-- numpy.argmax: index of the greatest value, first occurrence on ties, and
the first NaN when one is present.  `i` is the index of the head of the
remaining list, `bi`/`bv` the best index and value so far. -/
noncomputable def argmaxGo : ℕ → ℕ → NumF → List NumF → ℕ
  | _, bi, _, [] => bi
  | i, bi, bv, x :: xs =>
      if (NumF.isNan x && !(NumF.isNan bv)) || NumF.lt bv x then
        argmaxGo (i + 1) i x xs
      else argmaxGo (i + 1) bi bv xs

/-- numpy.argmax over a list (0 on the empty list, unreached). -/
noncomputable def argmaxIdx : List NumF → ℕ
  | [] => 0
  | x :: xs => argmaxGo 1 0 x xs

/-- The value `maximizeLogLikelihood` returns: either the degenerate
`(0., 0., 0., None)` of lines 458-464 (no parabola was fitted), or the
`(log_likelihood[index], richness[index], p, parabola)` of line 489. -/
inductive MaxResult where
  | degenerate : MaxResult
  | found : NumF → NumF → List NumF → MaxResult

/-- The log-likelihood component of the returned tuple. -/
def MaxResult.ll : MaxResult → NumF
  | degenerate => NumF.fin 0
  | found l _ _ => l

/-- The richness component of the returned tuple. -/
def MaxResult.richness : MaxResult → NumF
  | degenerate => NumF.fin 0
  | found _ r _ => r

/-- `Likelihood.maximizeLogLikelihood` (lines 452-489).  `u`, `b`, `f` model
`self.u`, `self.b`, `self.f`; `tol` is the `tolerance` parameter (default
1e-3).  `none` models non-termination of the source loop within `fuel`
iterations. -/
noncomputable def maximizeLogLikelihood (vtx : List NumF → List NumF → NumF)
    (u b : List NumF) (f tol : NumF) (fuel : ℕ) : Option MaxResult :=
  if u.any NumF.isNan then some MaxResult.degenerate
  else if !(u.any NumF.truthy) then some MaxResult.degenerate
  else
    match maxLLGo vtx u b f tol fuel (seedRichness f) (seedLogLikelihood u b f) with
    | none => none
    | some (richness, loglike) =>
        let idx := argmaxIdx loglike
        let rbest := richness.getD idx (NumF.fin 0)
        some (MaxResult.found (loglike.getD idx (NumF.fin 0)) rbest (pVector u b rbest))

/-! Helper lemmas about list indexing and `argmaxIdx`. -/

lemma List.getD_mem_or_eq {α : Type} (l : List α) (n : ℕ) (d : α) :
    l.getD n d ∈ l ∨ l.getD n d = d := by
  induction l generalizing n with
  | nil => right; simp
  | cons x xs ih =>
      cases n with
      | zero => left; simp
      | succ m =>
          rcases ih m with h | h
          · left; simp only [List.getD_cons_succ]; exact List.mem_cons_of_mem _ h
          · right; simpa using h

lemma argmaxGo_keep (w : ℝ) :
    ∀ (xs : List NumF) (i bi : ℕ),
    (∀ x ∈ xs, ∃ v, x = NumF.fin v ∧ v ≤ w) →
    argmaxGo i bi (NumF.fin w) xs = bi := by
  intro xs
  induction xs with
  | nil => intro i bi _; rfl
  | cons x xs ih =>
      intro i bi h
      obtain ⟨v, hx, hvw⟩ := h x (by simp)
      subst hx
      unfold argmaxGo
      have hcond : ((NumF.isNan (NumF.fin v) && !(NumF.isNan (NumF.fin w)))
          || NumF.lt (NumF.fin w) (NumF.fin v)) = false := by
        simp [NumF.isNan_fin, NumF.lt_fin_fin, not_lt.mpr hvw]
      rw [hcond]
      simp only [Bool.false_eq_true, if_false]
      exact ih (i + 1) bi (fun a ha => h a (by simp [ha]))

lemma argmaxGo_getD_ge (l : List NumF) :
    ∀ (xs : List NumF) (i bi : ℕ) (w : ℝ),
    l.getD bi (NumF.fin 0) = NumF.fin w →
    (∀ x ∈ xs, ∃ v, x = NumF.fin v) →
    l.drop i = xs →
    ∃ v, l.getD (argmaxGo i bi (NumF.fin w) xs) (NumF.fin 0) = NumF.fin v ∧ w ≤ v := by
  intro xs
  induction xs with
  | nil => intro i bi w hbi _ _; exact ⟨w, hbi, le_refl w⟩
  | cons x xs ih =>
      intro i bi w hbi hfin hdrop
      obtain ⟨v, hx⟩ := hfin x (by simp)
      subst hx
      have hxi : l.getD i (NumF.fin 0) = NumF.fin v := by
        have h0 : l[i]? = some (NumF.fin v) := by
          have := List.getElem?_drop l i 0
          rw [hdrop] at this
          simpa using this.symm
        simp [List.getD, h0]
      have hdrop' : l.drop (i + 1) = xs := by
        have h2 := List.drop_drop 1 i l
        rw [hdrop] at h2
        simpa using h2.symm
      unfold argmaxGo
      simp only [NumF.isNan_fin, Bool.and_false, Bool.false_and, Bool.false_or,
        NumF.lt_fin_fin]
      by_cases hwv : w < v
      · rw [if_pos (by simpa using hwv)]
        obtain ⟨v', hgot, hle⟩ := ih (i + 1) i v hxi
          (fun a ha => hfin a (by simp [ha])) hdrop'
        exact ⟨v', hgot, le_trans (le_of_lt hwv) hle⟩
      · rw [if_neg (by simpa using hwv)]
        exact ih (i + 1) bi w hbi (fun a ha => hfin a (by simp [ha])) hdrop'

/-- For an all-finite array with head value `w`, the value at the argmax
index is finite and at least `w`. -/
lemma argmaxIdx_getD_ge (w : ℝ) (xs : List NumF)
    (hfin : ∀ x ∈ xs, ∃ v, x = NumF.fin v) :
    ∃ v, (NumF.fin w :: xs).getD (argmaxIdx (NumF.fin w :: xs)) (NumF.fin 0) = NumF.fin v
      ∧ w ≤ v := by
  exact argmaxGo_getD_ge (NumF.fin w :: xs) xs 1 0 w rfl hfin rfl

/-- numpy.argmax returns the first occurrence of the maximum: if the head
dominates the tail, the index is 0. -/
lemma argmaxIdx_head_max (w : ℝ) (xs : List NumF)
    (h : ∀ x ∈ xs, ∃ v, x = NumF.fin v ∧ v ≤ w) :
    argmaxIdx (NumF.fin w :: xs) = 0 := by
  exact argmaxGo_keep w xs 1 0 h

/-! Invariants of the optimizer loop. -/

/-- Loop invariant on real-valued inputs: if the vertex extraction always
returns a finite value, the richness samples stay finite and nonnegative,
both sample arrays keep their literal `0.` heads, and the log-likelihood
samples stay finite. -/
lemma maxLLGo_invariant (vtx : List NumF → List NumF → NumF)
    (hvtx : ∀ R L, ∃ v, vtx R L = NumF.fin v)
    (us bs : List ℝ) (fr t : ℝ)
    (hu : ∀ x ∈ us, 0 ≤ x) (hb : ∀ x ∈ bs, 0 < x) :
    ∀ (n : ℕ) (R L R' L' : List NumF),
    (∀ x ∈ R, ∃ v, x = NumF.fin v ∧ 0 ≤ v) →
    (∃ tR, R = NumF.fin 0 :: tR) →
    (∃ tL, L = NumF.fin 0 :: tL) →
    (∀ x ∈ L, ∃ v, x = NumF.fin v) →
    maxLLGo vtx (us.map NumF.fin) (bs.map NumF.fin) (NumF.fin fr) (NumF.fin t) n R L
      = some (R', L') →
    (∀ x ∈ R', ∃ v, x = NumF.fin v ∧ 0 ≤ v) ∧
    (∃ tR, R' = NumF.fin 0 :: tR) ∧
    (∃ tL, L' = NumF.fin 0 :: tL) ∧
    (∀ x ∈ L', ∃ v, x = NumF.fin v) := by
  intro n
  induction n with
  | zero => intro R L R' L' _ _ _ _ h; exact absurd h (by simp [maxLLGo])
  | succ m ih =>
      intro R L R' L' hR hRh hLh hL hrun
      obtain ⟨v, hv⟩ := hvtx R (L.map (fun x => NumF.mul (NumF.fin 2) x))
      rw [show maxLLGo vtx (us.map NumF.fin) (bs.map NumF.fin) (NumF.fin fr)
            (NumF.fin t) (m + 1) R L
          = (if NumF.lt (vtx R (L.map (fun x => NumF.mul (NumF.fin 2) x))) (NumF.fin 0) then
              some (R, L)
            else
              let newll := logLikelihoodSimple (us.map NumF.fin) (bs.map NumF.fin)
                (NumF.fin fr) (vtx R (L.map (fun x => NumF.mul (NumF.fin 2) x)))
              if NumF.lt (NumF.fabs (NumF.sub newll (NumF.maxF L))) (NumF.fin t) then
                some (R ++ [vtx R (L.map (fun x => NumF.mul (NumF.fin 2) x))], L ++ [newll])
              else maxLLGo vtx (us.map NumF.fin) (bs.map NumF.fin) (NumF.fin fr)
                (NumF.fin t) m (R ++ [vtx R (L.map (fun x => NumF.mul (NumF.fin 2) x))])
                (L ++ [newll])) from rfl] at hrun
      rw [hv] at hrun
      by_cases hneg : v < 0
      · rw [if_pos (by simp [NumF.lt_fin_fin, hneg])] at hrun
        obtain ⟨h1, h2⟩ : R = R' ∧ L = L' := by
          constructor <;> { injection hrun with h; cases h; rfl }
        exact ⟨h1 ▸ hR, h1 ▸ hRh, h2 ▸ hLh, h2 ▸ hL⟩
      · have hvnn : 0 ≤ v := not_lt.mp hneg
        rw [if_neg (by simp [NumF.lt_fin_fin, hneg])] at hrun
        simp only [] at hrun
        rw [logLikelihoodSimple_fin us bs fr v hu hb hvnn] at hrun
        set w := logLikelihoodReal us bs fr v with hw
        have hR2 : ∀ x ∈ R ++ [NumF.fin v], ∃ v', x = NumF.fin v' ∧ 0 ≤ v' := by
          intro x hx
          rcases List.mem_append.mp hx with h | h
          · exact hR x h
          · exact ⟨v, by simpa using h, hvnn⟩
        have hL2 : ∀ x ∈ L ++ [NumF.fin w], ∃ v', x = NumF.fin v' := by
          intro x hx
          rcases List.mem_append.mp hx with h | h
          · exact hL x h
          · exact ⟨w, by simpa using h⟩
        have hRh2 : ∃ tR, R ++ [NumF.fin v] = NumF.fin 0 :: tR := by
          obtain ⟨tR, htR⟩ := hRh; exact ⟨tR ++ [NumF.fin v], by simp [htR]⟩
        have hLh2 : ∃ tL, L ++ [NumF.fin w] = NumF.fin 0 :: tL := by
          obtain ⟨tL, htL⟩ := hLh; exact ⟨tL ++ [NumF.fin w], by simp [htL]⟩
        by_cases htol : NumF.lt (NumF.fabs (NumF.sub (NumF.fin w) (NumF.maxF L)))
            (NumF.fin t) = true
        · rw [if_pos htol] at hrun
          obtain ⟨h1, h2⟩ : R ++ [NumF.fin v] = R' ∧ L ++ [NumF.fin w] = L' := by
            constructor <;> { injection hrun with h; cases h; rfl }
          exact ⟨h1 ▸ hR2, h1 ▸ hRh2, h2 ▸ hLh2, h2 ▸ hL2⟩
        · rw [if_neg htol] at hrun
          exact ih _ _ R' L' hR2 hRh2 hLh2 hL2 hrun

/-- Loop invariant under a log-likelihood curve that is strictly below its
value at richness 0 for every positive richness: all log-likelihood samples
stay finite and nonpositive, and both arrays keep their literal `0.` heads. -/
lemma maxLLGo_invariant_le (vtx : List NumF → List NumF → NumF)
    (hvtx : ∀ R L, ∃ v, vtx R L = NumF.fin v)
    (us bs : List ℝ) (fr t : ℝ)
    (hu : ∀ x ∈ us, 0 ≤ x) (hb : ∀ x ∈ bs, 0 < x)
    (hmono : ∀ r : ℝ, 0 < r → logLikelihoodReal us bs fr r < logLikelihoodReal us bs fr 0) :
    ∀ (n : ℕ) (R L R' L' : List NumF),
    (∃ tR, R = NumF.fin 0 :: tR) →
    (∃ tL, L = NumF.fin 0 :: tL) →
    (∀ x ∈ L, ∃ v, x = NumF.fin v ∧ v ≤ 0) →
    maxLLGo vtx (us.map NumF.fin) (bs.map NumF.fin) (NumF.fin fr) (NumF.fin t) n R L
      = some (R', L') →
    (∃ tR, R' = NumF.fin 0 :: tR) ∧
    (∃ tL, L' = NumF.fin 0 :: tL) ∧
    (∀ x ∈ L', ∃ v, x = NumF.fin v ∧ v ≤ 0) := by
  intro n
  induction n with
  | zero => intro R L R' L' _ _ _ h; exact absurd h (by simp [maxLLGo])
  | succ m ih =>
      intro R L R' L' hRh hLh hL hrun
      obtain ⟨v, hv⟩ := hvtx R (L.map (fun x => NumF.mul (NumF.fin 2) x))
      rw [show maxLLGo vtx (us.map NumF.fin) (bs.map NumF.fin) (NumF.fin fr)
            (NumF.fin t) (m + 1) R L
          = (if NumF.lt (vtx R (L.map (fun x => NumF.mul (NumF.fin 2) x))) (NumF.fin 0) then
              some (R, L)
            else
              let newll := logLikelihoodSimple (us.map NumF.fin) (bs.map NumF.fin)
                (NumF.fin fr) (vtx R (L.map (fun x => NumF.mul (NumF.fin 2) x)))
              if NumF.lt (NumF.fabs (NumF.sub newll (NumF.maxF L))) (NumF.fin t) then
                some (R ++ [vtx R (L.map (fun x => NumF.mul (NumF.fin 2) x))], L ++ [newll])
              else maxLLGo vtx (us.map NumF.fin) (bs.map NumF.fin) (NumF.fin fr)
                (NumF.fin t) m (R ++ [vtx R (L.map (fun x => NumF.mul (NumF.fin 2) x))])
                (L ++ [newll])) from rfl] at hrun
      rw [hv] at hrun
      by_cases hneg : v < 0
      · rw [if_pos (by simp [NumF.lt_fin_fin, hneg])] at hrun
        obtain ⟨h1, h2⟩ : R = R' ∧ L = L' := by
          constructor <;> { injection hrun with h; cases h; rfl }
        exact ⟨h1 ▸ hRh, h2 ▸ hLh, h2 ▸ hL⟩
      · have hvnn : 0 ≤ v := not_lt.mp hneg
        rw [if_neg (by simp [NumF.lt_fin_fin, hneg])] at hrun
        simp only [] at hrun
        rw [logLikelihoodSimple_fin us bs fr v hu hb hvnn] at hrun
        set w := logLikelihoodReal us bs fr v with hw
        have hwle : w ≤ 0 := by
          rcases eq_or_lt_of_le hvnn with h0 | h0
          · rw [hw, ← h0, logLikelihoodReal_zero]
          · have := hmono v h0
            rw [logLikelihoodReal_zero] at this
            exact le_of_lt this
        have hL2 : ∀ x ∈ L ++ [NumF.fin w], ∃ v', x = NumF.fin v' ∧ v' ≤ 0 := by
          intro x hx
          rcases List.mem_append.mp hx with h | h
          · exact hL x h
          · exact ⟨w, by simpa using h, hwle⟩
        have hRh2 : ∃ tR, R ++ [NumF.fin v] = NumF.fin 0 :: tR := by
          obtain ⟨tR, htR⟩ := hRh; exact ⟨tR ++ [NumF.fin v], by simp [htR]⟩
        have hLh2 : ∃ tL, L ++ [NumF.fin w] = NumF.fin 0 :: tL := by
          obtain ⟨tL, htL⟩ := hLh; exact ⟨tL ++ [NumF.fin w], by simp [htL]⟩
        by_cases htol : NumF.lt (NumF.fabs (NumF.sub (NumF.fin w) (NumF.maxF L)))
            (NumF.fin t) = true
        · rw [if_pos htol] at hrun
          obtain ⟨h1, h2⟩ : R ++ [NumF.fin v] = R' ∧ L ++ [NumF.fin w] = L' := by
            constructor <;> { injection hrun with h; cases h; rfl }
          exact ⟨h1 ▸ hRh2, h2 ▸ hLh2, h2 ▸ hL2⟩
        · rw [if_neg htol] at hrun
          exact ih _ _ R' L' hRh2 hLh2 hL2 hrun

/-- If the log-likelihood samples ever contain a NaN and the vertex
extraction propagates NaN (as any float quadratic fit does), neither loop
exit test can become true, and the loop never terminates: `none` for every
amount of fuel. -/
lemma maxLLGo_nan (vtx : List NumF → List NumF → NumF)
    (hvtx : ∀ R L, NumF.nan ∈ L → vtx R L = NumF.nan)
    (u b : List NumF) (f tol : NumF) :
    ∀ (n : ℕ) (R L : List NumF), NumF.nan ∈ L →
    maxLLGo vtx u b f tol n R L = none := by
  intro n
  induction n with
  | zero => intro R L _; rfl
  | succ m ih =>
      intro R L hnan
      have hmem : NumF.nan ∈ L.map (fun x => NumF.mul (NumF.fin 2) x) := by
        refine List.mem_map.mpr ⟨NumF.nan, hnan, ?_⟩
        exact NumF.mul_nan (NumF.fin 2)
      have hv : vtx R (L.map (fun x => NumF.mul (NumF.fin 2) x)) = NumF.nan :=
        hvtx _ _ hmem
      rw [show maxLLGo vtx u b f tol (m + 1) R L
          = (if NumF.lt (vtx R (L.map (fun x => NumF.mul (NumF.fin 2) x))) (NumF.fin 0) then
              some (R, L)
            else
              let newll := logLikelihoodSimple u b f
                (vtx R (L.map (fun x => NumF.mul (NumF.fin 2) x)))
              if NumF.lt (NumF.fabs (NumF.sub newll (NumF.maxF L))) tol then
                some (R ++ [vtx R (L.map (fun x => NumF.mul (NumF.fin 2) x))], L ++ [newll])
              else maxLLGo vtx u b f tol m
                (R ++ [vtx R (L.map (fun x => NumF.mul (NumF.fin 2) x))])
                (L ++ [newll])) from rfl]
      rw [hv]
      rw [if_neg (by simp [NumF.lt_nan_left])]
      simp only [logLikelihoodSimple_nan]
      rw [if_neg (by simp [NumF.nan_sub, NumF.lt_nan_left, NumF.fabs])]
      exact ih _ _ (by simp)

/-! Evaluation of the seed sample arrays. -/

lemma seedRichness_fin {fr : ℝ} (hf : fr ≠ 0) :
    seedRichness (NumF.fin fr) = [NumF.fin 0, NumF.fin (1 / fr), NumF.fin (10 / fr)] := by
  unfold seedRichness
  rw [NumF.div_fin_fin 1 hf, NumF.div_fin_fin 10 hf]

lemma seedLogLikelihood_fin (us bs : List ℝ) (fr : ℝ)
    (hu : ∀ x ∈ us, 0 ≤ x) (hb : ∀ x ∈ bs, 0 < x) (hf : 0 < fr) :
    seedLogLikelihood (us.map NumF.fin) (bs.map NumF.fin) (NumF.fin fr)
      = [NumF.fin 0,
         NumF.fin (logLikelihoodReal us bs fr (1 / fr)),
         NumF.fin (logLikelihoodReal us bs fr (10 / fr))] := by
  unfold seedLogLikelihood
  rw [NumF.div_fin_fin 1 (ne_of_gt hf), NumF.div_fin_fin 10 (ne_of_gt hf),
    logLikelihoodSimple_fin us bs fr _ hu hb (by positivity),
    logLikelihoodSimple_fin us bs fr _ hu hb (by positivity)]

/-- C1: if the signal weight array `u` is all-zero, or is NaN for every
object, `maximizeLogLikelihood` returns the degenerate result with zero
log-likelihood and zero richness, for every fuel amount including zero —
i.e. without running a single iteration of the optimization loop — and
without any failure (the source logs a warning and returns immediately). -/
theorem claim_C1 (vtx : List NumF → List NumF → NumF) (u b : List NumF) (f tol : NumF)
    (h : (∀ x ∈ u, x = NumF.nan) ∨ (∀ x ∈ u, x = NumF.fin 0)) :
    ∀ fuel : ℕ,
      maximizeLogLikelihood vtx u b f tol fuel = some MaxResult.degenerate
      ∧ MaxResult.ll MaxResult.degenerate = NumF.fin 0
      ∧ MaxResult.richness MaxResult.degenerate = NumF.fin 0 := by
  intro fuel
  refine ⟨?_, rfl, rfl⟩
  unfold maximizeLogLikelihood
  rcases h with hnan | hzero
  · cases u with
    | nil => simp
    | cons x xs =>
        have hx : x = NumF.nan := hnan x (by simp)
        subst hx
        simp [NumF.isNan]
  · have h1 : u.any NumF.isNan = false := by
      simp only [List.any_eq_false]
      intro x hx
      rw [hzero x hx]
      simp [NumF.isNan]
    have h2 : u.any NumF.truthy = false := by
      simp only [List.any_eq_false]
      intro x hx
      rw [hzero x hx]
      simp [NumF.truthy]
    simp [h1, h2]

/-- Witness for C1 at concrete degenerate inputs: a one-object catalog with
NaN signal weight, and a two-object catalog with all-zero signal weights. -/
theorem claim_C1_witness :
    maximizeLogLikelihood (fun _ _ => NumF.fin 0) [NumF.nan] [NumF.fin 1] (NumF.fin 1)
        (NumF.fin 1) 0 = some MaxResult.degenerate
    ∧ maximizeLogLikelihood (fun _ _ => NumF.fin 0) [NumF.fin 0, NumF.fin 0]
        [NumF.fin 1, NumF.fin 1] (NumF.fin 1) (NumF.fin 1) 0 = some MaxResult.degenerate :=
  ⟨(claim_C1 (fun _ _ => NumF.fin 0) [NumF.nan] [NumF.fin 1] (NumF.fin 1) (NumF.fin 1)
      (Or.inl (by simp)) 0).1,
   (claim_C1 (fun _ _ => NumF.fin 0) [NumF.fin 0, NumF.fin 0] [NumF.fin 1, NumF.fin 1]
      (NumF.fin 1) (NumF.fin 1) (Or.inr (by simp)) 0).1⟩

/-! C3: the optimization loop has no iteration cap.  The `iteration` counter
at line 485 of likelihood.py is incremented but never compared to any bound,
so the loop can only exit through the vertex sign test or the tolerance test.
On the input `u = [1]`, `b = [1]`, `f = 0` (a kernel whose observable
fraction vanishes over the ROI cut, which the guard at lines 456-464 does not
exclude) the seed richness `1/f` is infinite, every computed log-likelihood
sample is NaN, and both exit tests compare against NaN and are false forever;
with no cap, the source loop never terminates, contradicting the claim that
iteration is capped and cap excess is reported. -/

lemma logLikelihoodSimple_pinf_eval :
    logLikelihoodSimple [NumF.fin 1] [NumF.fin 1] (NumF.fin 0) NumF.pinf = NumF.nan := by
  have hp : pValue NumF.pinf (NumF.fin 1) (NumF.fin 1) = NumF.nan := by
    unfold pValue
    have hm : NumF.mul NumF.pinf (NumF.fin 1) = NumF.pinf := by
      norm_num [NumF.mul]
    rw [hm]
    rfl
  unfold logLikelihoodSimple pVector
  simp only [List.zipWith_cons_cons, List.zipWith_nil_right, List.map_cons, List.map_nil, hp]
  have hm0 : NumF.mul (NumF.fin 0) NumF.pinf = NumF.nan := by
    norm_num [NumF.mul]
  rw [hm0, NumF.sub_nan]

/-- C3 (code behaviour at the failing input): for every NaN-propagating
vertex extraction, the loop inside `maximizeLogLikelihood` never terminates
on `u = [1]`, `b = [1]`, `f = 0`, whatever the tolerance: there is no
iteration cap that would stop it. -/
theorem claim_C3 (vtx : List NumF → List NumF → NumF)
    (hvtx : ∀ R L, NumF.nan ∈ L → vtx R L = NumF.nan) (tol : NumF) :
    ∀ n : ℕ,
      maximizeLogLikelihood vtx [NumF.fin 1] [NumF.fin 1] (NumF.fin 0) tol n = none := by
  intro n
  unfold maximizeLogLikelihood
  have h1 : [NumF.fin 1].any NumF.isNan = false := by simp [NumF.isNan]
  have h2 : [NumF.fin 1].any NumF.truthy = true := by norm_num [NumF.truthy]
  rw [h1, h2]
  simp only [Bool.false_eq_true, if_false, Bool.not_true, if_false]
  have hseed : seedRichness (NumF.fin 0) = [NumF.fin 0, NumF.pinf, NumF.pinf] := by
    unfold seedRichness
    norm_num [NumF.div]
  have hseedL : seedLogLikelihood [NumF.fin 1] [NumF.fin 1] (NumF.fin 0)
      = [NumF.fin 0, NumF.nan, NumF.nan] := by
    unfold seedLogLikelihood
    norm_num [NumF.div, logLikelihoodSimple_pinf_eval]
  rw [hseed, hseedL, maxLLGo_nan vtx hvtx _ _ _ _ n _ _ (by simp)]

/-- Witness for C3: the constant-NaN vertex function propagates NaN, and the
loop is still running after (for instance) 5 iterations. -/
theorem claim_C3_witness :
    maximizeLogLikelihood (fun _ _ => NumF.nan) [NumF.fin 1] [NumF.fin 1] (NumF.fin 0)
      (NumF.fin (1 / 1000)) 5 = none :=
  claim_C3 (fun _ _ => NumF.nan) (fun _ _ _ => rfl) (NumF.fin (1 / 1000)) 5

/-- C10: `maximizeLogLikelihood` only ever returns a nonnegative richness
and a nonnegative log-likelihood.  The degenerate branch returns `(0, 0)`;
in the normal branch the sample arrays always contain the seed pair
`(richness 0, log-likelihood 0)`, and (for a vertex extraction returning
finite values, on real-valued nonnegative `u`, positive `b`, positive `f`)
only nonnegative vertex richness values are ever appended, so the argmax
over the samples is componentwise at least `(0, 0)`. -/
theorem claim_C10 (vtx : List NumF → List NumF → NumF)
    (hvtx : ∀ R L, ∃ v, vtx R L = NumF.fin v)
    (us bs : List ℝ) (fr t : ℝ)
    (hf : 0 < fr) (hu : ∀ x ∈ us, 0 ≤ x) (hb : ∀ x ∈ bs, 0 < x) :
    ∀ (fuel : ℕ) (res : MaxResult),
      maximizeLogLikelihood vtx (us.map NumF.fin) (bs.map NumF.fin) (NumF.fin fr)
        (NumF.fin t) fuel = some res →
      (∃ x, MaxResult.ll res = NumF.fin x ∧ 0 ≤ x)
      ∧ (∃ y, MaxResult.richness res = NumF.fin y ∧ 0 ≤ y) := by
  intro fuel res hrun
  unfold maximizeLogLikelihood at hrun
  have h1 : (us.map NumF.fin).any NumF.isNan = false := by
    simp [List.any_map, Function.comp, NumF.isNan]
  rw [h1] at hrun
  simp only [Bool.false_eq_true, if_false] at hrun
  cases ht : (us.map NumF.fin).any NumF.truthy with
  | false =>
      rw [ht] at hrun
      simp only [Bool.not_false, if_true] at hrun
      have hres : MaxResult.degenerate = res := by injection hrun
      rw [← hres]
      exact ⟨⟨0, rfl, le_refl 0⟩, ⟨0, rfl, le_refl 0⟩⟩
  | true =>
      rw [ht] at hrun
      simp only [Bool.not_true, Bool.false_eq_true, if_false] at hrun
      cases hgo : maxLLGo vtx (us.map NumF.fin) (bs.map NumF.fin) (NumF.fin fr)
          (NumF.fin t) fuel (seedRichness (NumF.fin fr))
          (seedLogLikelihood (us.map NumF.fin) (bs.map NumF.fin) (NumF.fin fr)) with
      | none => rw [hgo] at hrun; exact absurd hrun (by simp)
      | some RL =>
          obtain ⟨R', L'⟩ := RL
          rw [hgo] at hrun
          obtain ⟨hR', hRh', hLh', hL'⟩ :=
            maxLLGo_invariant vtx hvtx us bs fr t hu hb fuel _ _ R' L'
              (by
                rw [seedRichness_fin (ne_of_gt hf)]
                intro x hx
                simp only [List.mem_cons, List.mem_singleton, List.not_mem_nil, or_false] at hx
                rcases hx with h | h | h
                · exact ⟨0, h, le_refl 0⟩
                · exact ⟨1 / fr, h, by positivity⟩
                · exact ⟨10 / fr, h, by positivity⟩)
              ⟨_, seedRichness_fin (ne_of_gt hf)⟩
              ⟨_, seedLogLikelihood_fin us bs fr hu hb hf⟩
              (by
                rw [seedLogLikelihood_fin us bs fr hu hb hf]
                intro x hx
                simp only [List.mem_cons, List.mem_singleton, List.not_mem_nil, or_false] at hx
                rcases hx with h | h | h
                · exact ⟨0, h⟩
                · exact ⟨_, h⟩
                · exact ⟨_, h⟩)
              hgo
          have hres : MaxResult.found (L'.getD (argmaxIdx L') (NumF.fin 0))
              (R'.getD (argmaxIdx L') (NumF.fin 0))
              (pVector (us.map NumF.fin) (bs.map NumF.fin)
                (R'.getD (argmaxIdx L') (NumF.fin 0))) = res := by
            injection hrun
          rw [← hres]
          constructor
          · obtain ⟨tL', htL'⟩ := hLh'
            rw [htL']
            exact argmaxIdx_getD_ge 0 tL'
              (fun x hx => hL' x (htL' ▸ List.mem_cons_of_mem _ hx))
          · rcases List.getD_mem_or_eq R' (argmaxIdx L') (NumF.fin 0) with hm | he
            · obtain ⟨y, hy, h0y⟩ := hR' _ hm
              exact ⟨y, hy, h0y⟩
            · rw [he]
              exact ⟨0, rfl, le_refl 0⟩

/-- C2: whenever the fitted quadratic has a negative vertex richness the loop
stops at once — no further candidate is evaluated, and the sample arrays are
returned unchanged; all richness samples reachable from the seeds are finite
and nonnegative; and on a log-likelihood curve that is strictly maximal at
richness 0 (monotonically decreasing from `r = 0`), every terminating run
returns richness 0 and log-likelihood 0 (the first-occurrence argmax of the
samples is the seed `(0, 0)` pair). -/
theorem claim_C2 (vtx : List NumF → List NumF → NumF)
    (hvtx : ∀ R L, ∃ v, vtx R L = NumF.fin v)
    (us bs : List ℝ) (fr t : ℝ)
    (hf : 0 < fr) (hu : ∀ x ∈ us, 0 ≤ x) (hb : ∀ x ∈ bs, 0 < x)
    (hmono : ∀ r : ℝ, 0 < r →
      logLikelihoodReal us bs fr r < logLikelihoodReal us bs fr 0) :
    (∀ (R L : List NumF) (n : ℕ),
      NumF.lt (vtx R (L.map (fun x => NumF.mul (NumF.fin 2) x))) (NumF.fin 0) = true →
      maxLLGo vtx (us.map NumF.fin) (bs.map NumF.fin) (NumF.fin fr) (NumF.fin t)
        (n + 1) R L = some (R, L))
    ∧ (∀ (fuel : ℕ) (R' L' : List NumF),
      maxLLGo vtx (us.map NumF.fin) (bs.map NumF.fin) (NumF.fin fr) (NumF.fin t) fuel
        (seedRichness (NumF.fin fr))
        (seedLogLikelihood (us.map NumF.fin) (bs.map NumF.fin) (NumF.fin fr))
        = some (R', L') →
      ∀ x ∈ R', ∃ v, x = NumF.fin v ∧ 0 ≤ v)
    ∧ (∀ (fuel : ℕ) (res : MaxResult),
      maximizeLogLikelihood vtx (us.map NumF.fin) (bs.map NumF.fin) (NumF.fin fr)
        (NumF.fin t) fuel = some res →
      MaxResult.richness res = NumF.fin 0 ∧ MaxResult.ll res = NumF.fin 0) := by
  have hseedR : ∀ x ∈ seedRichness (NumF.fin fr), ∃ v, x = NumF.fin v ∧ 0 ≤ v := by
    rw [seedRichness_fin (ne_of_gt hf)]
    intro x hx
    simp only [List.mem_cons, List.mem_singleton, List.not_mem_nil, or_false] at hx
    rcases hx with h | h | h
    · exact ⟨0, h, le_refl 0⟩
    · exact ⟨1 / fr, h, by positivity⟩
    · exact ⟨10 / fr, h, by positivity⟩
  have hseedLle : ∀ x ∈ seedLogLikelihood (us.map NumF.fin) (bs.map NumF.fin) (NumF.fin fr),
      ∃ v, x = NumF.fin v ∧ v ≤ 0 := by
    rw [seedLogLikelihood_fin us bs fr hu hb hf]
    intro x hx
    simp only [List.mem_cons, List.mem_singleton, List.not_mem_nil, or_false] at hx
    have hm1 : logLikelihoodReal us bs fr (1 / fr) ≤ 0 := by
      have := hmono (1 / fr) (by positivity)
      rw [logLikelihoodReal_zero] at this
      exact le_of_lt this
    have hm10 : logLikelihoodReal us bs fr (10 / fr) ≤ 0 := by
      have := hmono (10 / fr) (by positivity)
      rw [logLikelihoodReal_zero] at this
      exact le_of_lt this
    rcases hx with h | h | h
    · exact ⟨0, h, le_refl 0⟩
    · exact ⟨_, h, hm1⟩
    · exact ⟨_, h, hm10⟩
  refine ⟨?_, ?_, ?_⟩
  · intro R L n hneg
    rw [show maxLLGo vtx (us.map NumF.fin) (bs.map NumF.fin) (NumF.fin fr)
          (NumF.fin t) (n + 1) R L
        = (if NumF.lt (vtx R (L.map (fun x => NumF.mul (NumF.fin 2) x))) (NumF.fin 0) then
            some (R, L)
          else
            let newll := logLikelihoodSimple (us.map NumF.fin) (bs.map NumF.fin)
              (NumF.fin fr) (vtx R (L.map (fun x => NumF.mul (NumF.fin 2) x)))
            if NumF.lt (NumF.fabs (NumF.sub newll (NumF.maxF L))) (NumF.fin t) then
              some (R ++ [vtx R (L.map (fun x => NumF.mul (NumF.fin 2) x))], L ++ [newll])
            else maxLLGo vtx (us.map NumF.fin) (bs.map NumF.fin) (NumF.fin fr)
              (NumF.fin t) n (R ++ [vtx R (L.map (fun x => NumF.mul (NumF.fin 2) x))])
              (L ++ [newll])) from rfl]
    rw [if_pos hneg]
  · intro fuel R' L' hrun
    exact (maxLLGo_invariant vtx hvtx us bs fr t hu hb fuel _ _ R' L' hseedR
      ⟨_, seedRichness_fin (ne_of_gt hf)⟩
      ⟨_, seedLogLikelihood_fin us bs fr hu hb hf⟩
      (fun x hx => (hseedLle x hx).imp (fun v hv => hv.1))
      hrun).1
  · intro fuel res hrun
    unfold maximizeLogLikelihood at hrun
    have h1 : (us.map NumF.fin).any NumF.isNan = false := by
      simp [List.any_map, Function.comp, NumF.isNan]
    rw [h1] at hrun
    simp only [Bool.false_eq_true, if_false] at hrun
    cases ht : (us.map NumF.fin).any NumF.truthy with
    | false =>
        rw [ht] at hrun
        simp only [Bool.not_false, if_true] at hrun
        have hres : MaxResult.degenerate = res := by injection hrun
        rw [← hres]
        exact ⟨rfl, rfl⟩
    | true =>
        rw [ht] at hrun
        simp only [Bool.not_true, Bool.false_eq_true, if_false] at hrun
        cases hgo : maxLLGo vtx (us.map NumF.fin) (bs.map NumF.fin) (NumF.fin fr)
            (NumF.fin t) fuel (seedRichness (NumF.fin fr))
            (seedLogLikelihood (us.map NumF.fin) (bs.map NumF.fin) (NumF.fin fr)) with
        | none => rw [hgo] at hrun; exact absurd hrun (by simp)
        | some RL =>
            obtain ⟨R', L'⟩ := RL
            rw [hgo] at hrun
            obtain ⟨hRh', hLh', hLle'⟩ :=
              maxLLGo_invariant_le vtx hvtx us bs fr t hu hb hmono fuel _ _ R' L'
                ⟨_, seedRichness_fin (ne_of_gt hf)⟩
                ⟨_, seedLogLikelihood_fin us bs fr hu hb hf⟩
                hseedLle
                hgo
            obtain ⟨tL', htL'⟩ := hLh'
            obtain ⟨tR', htR'⟩ := hRh'
            have hidx : argmaxIdx L' = 0 := by
              rw [htL']
              exact argmaxIdx_head_max 0 tL'
                (fun x hx => hLle' x (htL' ▸ List.mem_cons_of_mem _ hx))
            have hres : MaxResult.found (L'.getD (argmaxIdx L') (NumF.fin 0))
                (R'.getD (argmaxIdx L') (NumF.fin 0))
                (pVector (us.map NumF.fin) (bs.map NumF.fin)
                  (R'.getD (argmaxIdx L') (NumF.fin 0))) = res := by
              injection hrun
            rw [← hres]
            rw [hidx, htL', htR']
            exact ⟨rfl, rfl⟩

/-! Concrete evaluation of a run on `u = [1]`, `b = [1]`, `f = 1`, with a
vertex extraction that immediately reports a negative vertex. -/

lemma maxLLGo_stop (vtx : List NumF → List NumF → NumF)
    (u b : List NumF) (f tol : NumF) (R L : List NumF) (n : ℕ)
    (hneg : NumF.lt (vtx R (L.map (fun x => NumF.mul (NumF.fin 2) x))) (NumF.fin 0) = true) :
    maxLLGo vtx u b f tol (n + 1) R L = some (R, L) := by
  rw [show maxLLGo vtx u b f tol (n + 1) R L
      = (if NumF.lt (vtx R (L.map (fun x => NumF.mul (NumF.fin 2) x))) (NumF.fin 0) then
          some (R, L)
        else
          let newll := logLikelihoodSimple u b f
            (vtx R (L.map (fun x => NumF.mul (NumF.fin 2) x)))
          if NumF.lt (NumF.fabs (NumF.sub newll (NumF.maxF L))) tol then
            some (R ++ [vtx R (L.map (fun x => NumF.mul (NumF.fin 2) x))], L ++ [newll])
          else maxLLGo vtx u b f tol n
            (R ++ [vtx R (L.map (fun x => NumF.mul (NumF.fin 2) x))])
            (L ++ [newll])) from rfl]
  rw [if_pos hneg]

lemma llReal_one_eval (r : ℝ) (hr : 0 ≤ r) :
    logLikelihoodReal [1] [1] 1 r = Real.log (1 + r) - r := by
  unfold logLikelihoodReal
  simp only [List.zipWith_cons_cons, List.zipWith_nil_right, List.sum_cons, List.sum_nil,
    mul_one, one_mul, add_zero]
  have hden : r + 1 ≠ 0 := by positivity
  have h1 : (1 : ℝ) - r / (r + 1) = (1 + r)⁻¹ := by
    field_simp
    ring
  rw [h1, Real.log_inv]
  ring

lemma llReal_one_mono (r : ℝ) (hr : 0 < r) :
    logLikelihoodReal [1] [1] 1 r < logLikelihoodReal [1] [1] 1 0 := by
  rw [llReal_one_eval r (le_of_lt hr), logLikelihoodReal_zero]
  have h := Real.log_lt_sub_one_of_pos (x := 1 + r) (by linarith) (by linarith)
  linarith

lemma maxLL_run_eval :
    maximizeLogLikelihood (fun _ _ => NumF.fin (-1)) [NumF.fin 1] [NumF.fin 1] (NumF.fin 1)
      (NumF.fin (1 / 1000)) 1
    = some (MaxResult.found (NumF.fin 0) (NumF.fin 0) [NumF.fin 0]) := by
  have hseedR : seedRichness (NumF.fin 1) = [NumF.fin 0, NumF.fin 1, NumF.fin 10] := by
    rw [seedRichness_fin one_ne_zero]
    norm_num
  have hseedL : seedLogLikelihood [NumF.fin 1] [NumF.fin 1] (NumF.fin 1)
      = [NumF.fin 0, NumF.fin (Real.log 2 - 1), NumF.fin (Real.log 11 - 10)] := by
    have h := seedLogLikelihood_fin [1] [1] 1 (by norm_num) (by norm_num) one_pos
    simp only [List.map_cons, List.map_nil] at h
    rw [h]
    norm_num
    rw [llReal_one_eval 1 (by norm_num), llReal_one_eval 10 (by norm_num)]
    norm_num
  have hgo := maxLLGo_stop (fun _ _ => NumF.fin (-1)) [NumF.fin 1] [NumF.fin 1]
    (NumF.fin 1) (NumF.fin (1 / 1000)) (seedRichness (NumF.fin 1))
    (seedLogLikelihood [NumF.fin 1] [NumF.fin 1] (NumF.fin 1)) 0
    (by simp only [NumF.lt_fin_fin, decide_eq_true_eq]; norm_num)
  rw [Nat.zero_add] at hgo
  unfold maximizeLogLikelihood
  have h1 : [NumF.fin 1].any NumF.isNan = false := by simp [NumF.isNan]
  have h2 : [NumF.fin 1].any NumF.truthy = true := by norm_num [NumF.truthy]
  rw [h1, h2]
  simp only [Bool.false_eq_true, if_false, Bool.not_true, if_false]
  rw [hgo]
  show some (MaxResult.found
      ((seedLogLikelihood [NumF.fin 1] [NumF.fin 1] (NumF.fin 1)).getD
        (argmaxIdx (seedLogLikelihood [NumF.fin 1] [NumF.fin 1] (NumF.fin 1))) (NumF.fin 0))
      ((seedRichness (NumF.fin 1)).getD
        (argmaxIdx (seedLogLikelihood [NumF.fin 1] [NumF.fin 1] (NumF.fin 1))) (NumF.fin 0))
      (pVector [NumF.fin 1] [NumF.fin 1]
        ((seedRichness (NumF.fin 1)).getD
          (argmaxIdx (seedLogLikelihood [NumF.fin 1] [NumF.fin 1] (NumF.fin 1))) (NumF.fin 0))))
    = some (MaxResult.found (NumF.fin 0) (NumF.fin 0) [NumF.fin 0])
  rw [hseedR, hseedL]
  have hlog2 : Real.log 2 - 1 ≤ 0 := by
    have h := Real.log_lt_sub_one_of_pos (x := 2) (by norm_num) (by norm_num)
    linarith
  have hlog11 : Real.log 11 - 10 ≤ 0 := by
    have h := Real.log_lt_sub_one_of_pos (x := 11) (by norm_num) (by norm_num)
    linarith
  have hidx : argmaxIdx [NumF.fin 0, NumF.fin (Real.log 2 - 1), NumF.fin (Real.log 11 - 10)]
      = 0 := by
    apply argmaxIdx_head_max
    intro x hx
    simp only [List.mem_cons, List.mem_singleton, List.not_mem_nil, or_false] at hx
    rcases hx with h | h
    · exact ⟨Real.log 2 - 1, h, hlog2⟩
    · exact ⟨Real.log 11 - 10, h, hlog11⟩
  rw [hidx]
  have hpv : pVector [NumF.fin 1] [NumF.fin 1] (NumF.fin 0) = [NumF.fin 0] := by
    unfold pVector pValue
    norm_num [NumF.mul, NumF.add, NumF.div]
  simp only [List.getD_cons_zero, hpv]

/-- Witness for C2: on `u = [1]`, `b = [1]`, `f = 1` the log-likelihood is
monotonically decreasing from richness 0, and with a vertex extraction that
reports a negative vertex the run stops at the seeds and returns the pair
`(log-likelihood 0, richness 0)`. -/
theorem claim_C2_witness :
    maximizeLogLikelihood (fun _ _ => NumF.fin (-1)) [NumF.fin 1] [NumF.fin 1] (NumF.fin 1)
        (NumF.fin (1 / 1000)) 1
      = some (MaxResult.found (NumF.fin 0) (NumF.fin 0) [NumF.fin 0])
    ∧ MaxResult.richness (MaxResult.found (NumF.fin 0) (NumF.fin 0) [NumF.fin 0]) = NumF.fin 0
    ∧ MaxResult.ll (MaxResult.found (NumF.fin 0) (NumF.fin 0) [NumF.fin 0]) = NumF.fin 0 := by
  have hrun : maximizeLogLikelihood (fun _ _ => NumF.fin (-1)) (([(1 : ℝ)]).map NumF.fin)
      (([(1 : ℝ)]).map NumF.fin) (NumF.fin 1) (NumF.fin (1 / 1000)) 1
      = some (MaxResult.found (NumF.fin 0) (NumF.fin 0) [NumF.fin 0]) := maxLL_run_eval
  have h := (claim_C2 (fun _ _ => NumF.fin (-1)) (fun _ _ => ⟨-1, rfl⟩) [1] [1] 1 (1 / 1000)
    one_pos (by norm_num) (by norm_num) llReal_one_mono).2.2 1 _ hrun
  exact ⟨maxLL_run_eval, h.1, h.2⟩

/-- Witness for C10 at the same concrete input: the returned pair is finite
and nonnegative in both components. -/
theorem claim_C10_witness :
    maximizeLogLikelihood (fun _ _ => NumF.fin (-1)) [NumF.fin 1] [NumF.fin 1] (NumF.fin 1)
        (NumF.fin (1 / 1000)) 1
      = some (MaxResult.found (NumF.fin 0) (NumF.fin 0) [NumF.fin 0])
    ∧ (∃ x, MaxResult.ll (MaxResult.found (NumF.fin 0) (NumF.fin 0) [NumF.fin 0]) = NumF.fin x
        ∧ 0 ≤ x)
    ∧ (∃ y, MaxResult.richness (MaxResult.found (NumF.fin 0) (NumF.fin 0) [NumF.fin 0])
        = NumF.fin y ∧ 0 ≤ y) := by
  have hrun : maximizeLogLikelihood (fun _ _ => NumF.fin (-1)) (([(1 : ℝ)]).map NumF.fin)
      (([(1 : ℝ)]).map NumF.fin) (NumF.fin 1) (NumF.fin (1 / 1000)) 1
      = some (MaxResult.found (NumF.fin 0) (NumF.fin 0) [NumF.fin 0]) := maxLL_run_eval
  have h := claim_C10 (fun _ _ => NumF.fin (-1)) (fun _ _ => ⟨-1, rfl⟩) [1] [1] 1 (1 / 1000)
    one_pos (by norm_num) (by norm_num) 1 _ hrun
  exact ⟨maxLL_run_eval, h.1, h.2⟩

/-! C4: `logLikelihoodSimple(0)`.  The claim quantifies over every background
array `b`; at a zero background entry the membership ratio at richness 0 is
`0/0`, which numpy evaluates to NaN, and the NaN poisons the whole sum, so
the result is NaN rather than 0.  With every background entry nonzero the
claim holds. -/

/-- C4 counterexample: at `u = [1]`, `b = [0]`, `f = 1` the value of
`logLikelihoodSimple` at richness 0 is NaN, not 0. -/
theorem claim_C4_counterexample :
    logLikelihoodSimple [NumF.fin 1] [NumF.fin 0] (NumF.fin 1) (NumF.fin 0) = NumF.nan
    ∧ NumF.nan ≠ NumF.fin 0 := by
  constructor
  · have hp : pValue (NumF.fin 0) (NumF.fin 1) (NumF.fin 0) = NumF.nan := by
      unfold pValue
      norm_num [NumF.mul, NumF.add, NumF.div]
    unfold logLikelihoodSimple pVector
    simp only [List.zipWith_cons_cons, List.zipWith_nil_right, List.map_cons, List.map_nil,
      hp, NumF.sub_nan, NumF.log_nan]
    have hs : NumF.sumF [NumF.nan] = NumF.nan := by
      unfold NumF.sumF
      simp [NumF.add]
    rw [hs]
    norm_num [NumF.neg, NumF.mul, NumF.sub, NumF.add]
  · intro h
    exact NumF.noConfusion h

/-- C4 (amended): for every signal weight array `u`, every scalar `f`, and
every background array `b` all of whose entries are nonzero,
`logLikelihoodSimple` at richness 0 equals 0. -/
theorem claim_C4 (us bs : List ℝ) (fr : ℝ) (hb : ∀ x ∈ bs, x ≠ 0) :
    logLikelihoodSimple (us.map NumF.fin) (bs.map NumF.fin) (NumF.fin fr) (NumF.fin 0)
      = NumF.fin 0 := by
  have hzip : (pVector (us.map NumF.fin) (bs.map NumF.fin) (NumF.fin 0)).map
      (fun p => NumF.log (NumF.sub (NumF.fin 1) p))
      = (List.replicate (min us.length bs.length) (0 : ℝ)).map NumF.fin := by
    unfold pVector
    induction us generalizing bs with
    | nil => simp
    | cons x xs ih =>
        cases bs with
        | nil => simp
        | cons y ys =>
            have hy : y ≠ 0 := hb y (by simp)
            have hterm : NumF.log (NumF.sub (NumF.fin 1)
                (pValue (NumF.fin 0) (NumF.fin x) (NumF.fin y))) = NumF.fin 0 := by
              unfold pValue
              rw [NumF.mul_fin_fin, NumF.add_fin_fin]
              rw [show (0 : ℝ) * x = 0 from zero_mul x]
              rw [show (0 : ℝ) + y = y from zero_add y]
              rw [NumF.div_fin_fin 0 hy, NumF.sub_fin_fin]
              norm_num [NumF.log]
            simp only [List.map_cons, List.zipWith_cons_cons, List.length_cons, hterm]
            rw [show min (xs.length + 1) (ys.length + 1) = min xs.length ys.length + 1 by omega]
            simp only [List.replicate_succ, List.map_cons, List.cons.injEq]
            exact ⟨by simp, ih ys (fun a ha => hb a (by simp [ha]))⟩
  unfold logLikelihoodSimple
  rw [hzip, NumF.sumF_map_fin]
  simp only [List.sum_replicate, smul_zero]
  rw [NumF.neg_fin, NumF.mul_fin_fin, NumF.sub_fin_fin]
  norm_num

/-- Witness for the amended C4 at a concrete input with nonzero background. -/
theorem claim_C4_witness :
    logLikelihoodSimple [NumF.fin 2] [NumF.fin 3] (NumF.fin 5) (NumF.fin 0) = NumF.fin 0 := by
  have h := claim_C4 [2] [3] 5 (by norm_num)
  simpa using h

/-! C5: membership probability bounds.  The claim allows `b = 0`; at
`r = 1`, `u = 1`, `b = 0` the ratio is exactly `1/(1+0) = 1`, outside the
claimed interval `[0, 1)`.  With `b > 0` the bounds hold. -/

/-- C5 counterexample: `r = 1 ≥ 0`, `u = 1 ≥ 0`, `b = 0 ≥ 0`, yet the
membership probability is exactly 1, not in `[0, 1)`. -/
theorem claim_C5_counterexample :
    (0 : ℝ) ≤ 1 ∧ (0 : ℝ) ≤ 0
    ∧ pValue (NumF.fin 1) (NumF.fin 1) (NumF.fin 0) = NumF.fin 1
    ∧ ¬ ((1 : ℝ) < 1) := by
  refine ⟨by norm_num, le_refl 0, ?_, by norm_num⟩
  unfold pValue
  norm_num [NumF.mul, NumF.add, NumF.div]

/-- C5 (amended): for every richness `r ≥ 0` and per-object weights `u ≥ 0`
and `b > 0`, the membership probability `p = r*u/(r*u + b)` is finite and
lies in `[0, 1)`. -/
theorem claim_C5 (r u b : ℝ) (hr : 0 ≤ r) (hu : 0 ≤ u) (hb : 0 < b) :
    ∃ p : ℝ, pValue (NumF.fin r) (NumF.fin u) (NumF.fin b) = NumF.fin p
      ∧ 0 ≤ p ∧ p < 1 := by
  have hden : 0 < r * u + b := by positivity
  refine ⟨r * u / (r * u + b), ?_, by positivity, ?_⟩
  · unfold pValue
    rw [NumF.mul_fin_fin, NumF.add_fin_fin, NumF.div_fin_fin _ (ne_of_gt hden)]
  · rw [div_lt_one hden]
    nlinarith

/-- Witness for the amended C5 at `r = 1`, `u = 1`, `b = 1` (where
`p = 1/2`). -/
theorem claim_C5_witness :
    ∃ p : ℝ, pValue (NumF.fin 1) (NumF.fin 1) (NumF.fin 1) = NumF.fin p ∧ 0 ≤ p ∧ p < 1 :=
  claim_C5 1 1 1 (by norm_num) (by norm_num) (by norm_num)

/-! C9: the guard of `maximizeLogLikelihood` checks only `u`, and the claim
asserts that `f > 0` and `b > 0` alone make every division well defined.
That is refuted by a negative signal weight (which passes the guard): at
`u = [-1]`, `b = [1]`, `f = 1` the seed richness is `1/f = 1` and the
denominator `r*u + b = -1 + 1 = 0`, so the membership division has a zero
divisor and evaluates to `-inf`.  Adding `u ≥ 0` to the precondition makes
every division finite. -/

/-- C9 counterexample: `u = [-1]` passes the NaN/all-zero guard, `f = 1 > 0`
and `b = [1] > 0`, yet at the seed richness `1/f` the membership denominator
is exactly zero and the division yields `-inf`, not a finite value. -/
theorem claim_C9_counterexample :
    [NumF.fin (-1)].any NumF.isNan = false
    ∧ [NumF.fin (-1)].any NumF.truthy = true
    ∧ NumF.add (NumF.mul (NumF.div (NumF.fin 1) (NumF.fin 1)) (NumF.fin (-1))) (NumF.fin 1)
        = NumF.fin 0
    ∧ pValue (NumF.div (NumF.fin 1) (NumF.fin 1)) (NumF.fin (-1)) (NumF.fin 1) = NumF.ninf
    ∧ NumF.ninf ≠ NumF.fin 0 := by
  refine ⟨by simp [NumF.isNan], by norm_num [NumF.truthy], ?_, ?_, ?_⟩
  · norm_num [NumF.mul, NumF.add, NumF.div]
  · unfold pValue
    norm_num [NumF.mul, NumF.add, NumF.div]
  · intro h
    exact NumF.noConfusion h

/-- C9 (amended): the guard of `maximizeLogLikelihood` depends only on the
signal weights `u` — it returns the degenerate result exactly when `u` has a
NaN entry or no truthy entry, for any `b`, `f`, tolerance, vertex extraction
and fuel — and under the precondition `f > 0`, `b > 0` and `u ≥ 0` for every
object, the seed divisions `1/f` and `10/f` and every membership denominator
`r*u + b` at nonnegative richness are nonzero, all quotients finite. -/
theorem claim_C9 (us bs : List ℝ) (fr : ℝ)
    (hf : 0 < fr) (hu : ∀ x ∈ us, 0 ≤ x) (hb : ∀ x ∈ bs, 0 < x) :
    (∀ (vtx : List NumF → List NumF → NumF) (u b : List NumF) (f tol : NumF) (fuel : ℕ),
      maximizeLogLikelihood vtx u b f tol fuel = some MaxResult.degenerate
        ↔ (u.any NumF.isNan = true ∨ u.any NumF.truthy = false))
    ∧ NumF.div (NumF.fin 1) (NumF.fin fr) = NumF.fin (1 / fr)
    ∧ NumF.div (NumF.fin 10) (NumF.fin fr) = NumF.fin (10 / fr)
    ∧ (∀ r : ℝ, 0 ≤ r → ∀ u ∈ us, ∀ b ∈ bs,
        (r * u + b ≠ 0)
        ∧ pValue (NumF.fin r) (NumF.fin u) (NumF.fin b)
            = NumF.fin (r * u / (r * u + b))) := by
  refine ⟨?_, NumF.div_fin_fin 1 (ne_of_gt hf), NumF.div_fin_fin 10 (ne_of_gt hf), ?_⟩
  · intro vtx u b f tol fuel
    constructor
    · intro h
      by_contra hcon
      push_neg at hcon
      obtain ⟨h1, h2⟩ := hcon
      have h1' : u.any NumF.isNan = false := by
        cases hx : u.any NumF.isNan
        · rfl
        · exact absurd hx h1
      have h2' : u.any NumF.truthy = true := by
        cases hx : u.any NumF.truthy
        · exact absurd hx h2
        · rfl
      unfold maximizeLogLikelihood at h
      rw [h1', h2'] at h
      simp only [Bool.false_eq_true, if_false, Bool.not_true, if_false] at h
      cases hgo : maxLLGo vtx u b f tol fuel (seedRichness f) (seedLogLikelihood u b f) with
      | none => rw [hgo] at h; exact absurd h (by simp)
      | some RL =>
          obtain ⟨R', L'⟩ := RL
          rw [hgo] at h
          have : MaxResult.found (L'.getD (argmaxIdx L') (NumF.fin 0))
              (R'.getD (argmaxIdx L') (NumF.fin 0))
              (pVector u b (R'.getD (argmaxIdx L') (NumF.fin 0)))
              = MaxResult.degenerate := by injection h
          exact MaxResult.noConfusion this
    · intro h
      unfold maximizeLogLikelihood
      rcases h with h | h
      · rw [h]
        simp
      · have h1 : u.any NumF.isNan = false := by
          cases hx : u.any NumF.isNan
          · rfl
          · exfalso
            rcases List.any_eq_true.mp hx with ⟨x, hmem, hnan⟩
            have : NumF.truthy x = true := by
              cases x <;> simp_all [NumF.isNan, NumF.truthy]
            have := List.any_eq_true.mpr ⟨x, hmem, this⟩
            rw [h] at this
            exact Bool.noConfusion this
        rw [h1, h]
        simp
  · intro r hrr u hmu b hmb
    have hu0 : 0 ≤ u := hu u hmu
    have hb0 : 0 < b := hb b hmb
    have hden : 0 < r * u + b := by positivity
    refine ⟨ne_of_gt hden, ?_⟩
    unfold pValue
    rw [NumF.mul_fin_fin, NumF.add_fin_fin, NumF.div_fin_fin _ (ne_of_gt hden)]

/-- Witness for the amended C9 at `u = [1]`, `b = [1]`, `f = 1`, richness 1:
the degenerate-result characterization holds and the membership division is
finite with nonzero denominator. -/
theorem claim_C9_witness :
    (maximizeLogLikelihood (fun _ _ => NumF.fin 0) [NumF.fin 0] [NumF.fin 1] (NumF.fin 1)
        (NumF.fin 1) 3 = some MaxResult.degenerate
      ↔ ([NumF.fin 0].any NumF.isNan = true ∨ [NumF.fin 0].any NumF.truthy = false))
    ∧ NumF.div (NumF.fin 1) (NumF.fin 1) = NumF.fin (1 / 1)
    ∧ ((1 : ℝ) * 1 + 1 ≠ 0)
    ∧ pValue (NumF.fin 1) (NumF.fin 1) (NumF.fin 1) = NumF.fin (1 * 1 / (1 * 1 + 1)) := by
  have h := claim_C9 [1] [1] 1 one_pos (by norm_num) (by norm_num)
  have h4 := h.2.2.2 1 (by norm_num) 1 (by norm_num) 1 (by norm_num)
  exact ⟨h.1 (fun _ _ => NumF.fin 0) [NumF.fin 0] [NumF.fin 1] (NumF.fin 1) (NumF.fin 1) 3,
    h.2.1, h4.1, h4.2⟩

/-!
Embedding of `Likelihood.signalColor` (likelihood.py lines 132-200) for a
single catalog object.

The sampled isochrone is binned into a 2-D magnitude histogram and clipped to
the ROI's color-magnitude footprint (lines 140-162); what remains is the list
of surviving cells (`index_mag_1`/`index_mag_2` with weights
`isochrone_pdf`), each with its bin edges in the two bands.  The per-band
probability that an object's Gaussian-distributed magnitude falls in a cell
is a difference of normal CDF values at the standardized hi/lo cell edges
(lines 170-196), computed only for object-cell pairs within 5 sigma in both
bands and exactly zero otherwise (lines 183-188).  The normal CDF
`scipy.stats.norm.cdf` is an external collaborator and is a parameter `cdf`.
-/

/-- One surviving isochrone histogram cell: bin edges in each band (already
shifted by the distance modulus) and mass weight (`isochrone_pdf`). -/
structure IsoBin where
  lo1 : ℝ
  hi1 : ℝ
  lo2 : ℝ
  hi2 : ℝ
  w : ℝ

/-- The contribution of one cell to one object's signal color probability:
`pdf_mag_1 * pdf_mag_2 * isochrone_pdf` inside the 5-sigma window (lines
183-199), exactly zero outside it. -/
noncomputable def cellTerm (cdf : ℝ → ℝ) (mag1 err1 mag2 err2 : ℝ) (c : IsoBin) : ℝ :=
  if -5 < (mag1 - c.lo1) / err1 ∧ (mag1 - c.hi1) / err1 < 5
      ∧ -5 < (mag2 - c.lo2) / err2 ∧ (mag2 - c.hi2) / err2 < 5 then
    (cdf ((mag1 - c.lo1) / err1) - cdf ((mag1 - c.hi1) / err1))
      * (cdf ((mag2 - c.lo2) / err2) - cdf ((mag2 - c.hi2) / err2)) * c.w
  else 0

/-- `signalColor` for one catalog object (line 199): sum of the per-cell
contributions over the surviving isochrone cells. -/
noncomputable def signalColorObj (cdf : ℝ → ℝ) (mag1 err1 mag2 err2 : ℝ)
    (bins : List IsoBin) : ℝ :=
  (bins.map (cellTerm cdf mag1 err1 mag2 err2)).sum

/-- C6: for every catalog object, the signal color probability is
nonnegative and at most the total isochrone probability mass retained after
footprint clipping (the sum of the surviving cell weights); each per-band
cell probability is a difference of CDF values in [0,1] (the CDF being
monotone with range in [0,1]), and object-cell pairs beyond 5 sigma
contribute exactly zero. -/
theorem claim_C6 (cdf : ℝ → ℝ) (mag1 err1 mag2 err2 : ℝ) (bins : List IsoBin)
    (hmono : Monotone cdf) (h0 : ∀ x, 0 ≤ cdf x) (h1 : ∀ x, cdf x ≤ 1)
    (hw : ∀ c ∈ bins, 0 ≤ c.w)
    (hb1 : ∀ c ∈ bins, c.lo1 ≤ c.hi1) (hb2 : ∀ c ∈ bins, c.lo2 ≤ c.hi2)
    (he1 : 0 < err1) (he2 : 0 < err2) :
    0 ≤ signalColorObj cdf mag1 err1 mag2 err2 bins
    ∧ signalColorObj cdf mag1 err1 mag2 err2 bins ≤ (bins.map IsoBin.w).sum
    ∧ ∀ c ∈ bins,
        ¬(-5 < (mag1 - c.lo1) / err1 ∧ (mag1 - c.hi1) / err1 < 5
          ∧ -5 < (mag2 - c.lo2) / err2 ∧ (mag2 - c.hi2) / err2 < 5) →
        cellTerm cdf mag1 err1 mag2 err2 c = 0 := by
  have hterm : ∀ c ∈ bins, 0 ≤ cellTerm cdf mag1 err1 mag2 err2 c
      ∧ cellTerm cdf mag1 err1 mag2 err2 c ≤ c.w := by
    intro c hc
    unfold cellTerm
    by_cases hwin : -5 < (mag1 - c.lo1) / err1 ∧ (mag1 - c.hi1) / err1 < 5
        ∧ -5 < (mag2 - c.lo2) / err2 ∧ (mag2 - c.hi2) / err2 < 5
    · rw [if_pos hwin]
      have ha1 : (mag1 - c.hi1) / err1 ≤ (mag1 - c.lo1) / err1 :=
        (div_le_div_right he1).mpr (by linarith [hb1 c hc])
      have ha2 : (mag2 - c.hi2) / err2 ≤ (mag2 - c.lo2) / err2 :=
        (div_le_div_right he2).mpr (by linarith [hb2 c hc])
      have hd1lo : 0 ≤ cdf ((mag1 - c.lo1) / err1) - cdf ((mag1 - c.hi1) / err1) :=
        sub_nonneg.mpr (hmono ha1)
      have hd1hi : cdf ((mag1 - c.lo1) / err1) - cdf ((mag1 - c.hi1) / err1) ≤ 1 := by
        have := h1 ((mag1 - c.lo1) / err1)
        have := h0 ((mag1 - c.hi1) / err1)
        linarith
      have hd2lo : 0 ≤ cdf ((mag2 - c.lo2) / err2) - cdf ((mag2 - c.hi2) / err2) :=
        sub_nonneg.mpr (hmono ha2)
      have hd2hi : cdf ((mag2 - c.lo2) / err2) - cdf ((mag2 - c.hi2) / err2) ≤ 1 := by
        have := h1 ((mag2 - c.lo2) / err2)
        have := h0 ((mag2 - c.hi2) / err2)
        linarith
      have hcw : 0 ≤ c.w := hw c hc
      have hprod : (cdf ((mag1 - c.lo1) / err1) - cdf ((mag1 - c.hi1) / err1))
          * (cdf ((mag2 - c.lo2) / err2) - cdf ((mag2 - c.hi2) / err2)) ≤ 1 := by
        nlinarith
      constructor
      · positivity
      · calc (cdf ((mag1 - c.lo1) / err1) - cdf ((mag1 - c.hi1) / err1))
              * (cdf ((mag2 - c.lo2) / err2) - cdf ((mag2 - c.hi2) / err2)) * c.w
            ≤ 1 * c.w := mul_le_mul_of_nonneg_right hprod hcw
          _ = c.w := one_mul c.w
    · rw [if_neg hwin]
      exact ⟨le_refl 0, hw c hc⟩
  refine ⟨?_, ?_, ?_⟩
  · apply List.sum_nonneg
    intro x hx
    rcases List.mem_map.mp hx with ⟨c, hc, hcx⟩
    rw [← hcx]
    exact (hterm c hc).1
  · exact List.sum_le_sum (fun c hc => (hterm c hc).2)
  · intro c hc hout
    unfold cellTerm
    rw [if_neg hout]

/-- Witness for C6 with a constant CDF model and one surviving cell of
weight 2: the signal color probability is in `[0, 2]`. -/
theorem claim_C6_witness :
    0 ≤ signalColorObj (fun _ => 1 / 2) 0 1 0 1 [⟨0, 1, 0, 1, 2⟩]
    ∧ signalColorObj (fun _ => 1 / 2) 0 1 0 1 [⟨0, 1, 0, 1, 2⟩] ≤ 2 := by
  have h := claim_C6 (fun _ => 1 / 2) 0 1 0 1 [⟨0, 1, 0, 1, 2⟩]
    monotone_const (fun _ => by norm_num) (fun _ => by norm_num)
    (by intro c hc; simp only [List.mem_singleton] at hc; subst hc; norm_num)
    (by intro c hc; simp only [List.mem_singleton] at hc; subst hc; norm_num)
    (by intro c hc; simp only [List.mem_singleton] at hc; subst hc; norm_num)
    one_pos one_pos
  refine ⟨h.1, ?_⟩
  have h2 := h.2.1
  simpa using h2

/-!
Embedding of the `u_color` population step of `Likelihood.precomputeGridSearch`
(likelihood.py lines 104-130).

For each distance modulus the entry starts as the Python literal `False`
(line 111); when a lookup-table path is configured, `readColorLUT` is called
(lines 112-119); when the resulting entry has no truthy element — the path
was never configured, the read failed, or the table returned an empty or
all-zero array — the signal color is computed on the fly (lines 120-122).

`ugali.analysis.color_lut.readColorLUT` is not part of the analyzed tree.
-/

/-- A Python value held in `u_color_array[ii]`: the literal `False` or a
numpy array. -/
inductive PyVal where
  | pybool : Bool → PyVal
  | pyarr : List ℝ → PyVal

/-- `numpy.any` over such a value: `any(False) = False`, and an array is
truthy when it has a nonzero element. -/
noncomputable def pyAny : PyVal → Bool
  | PyVal.pybool b => b
  | PyVal.pyarr l => l.any (fun x => !(decide (x = 0)))

/-- Modelled from the spec: `readColorLUT` (from `ugali.analysis.color_lut`,
not under the analyzed tree) "returns a per-object array or empty" given a
lookup table; an absent or unreadable table yields no array, modelled as the
falsy value `False`. -/
noncomputable def readColorLUT (lutResult : Option (List ℝ)) : PyVal :=
  match lutResult with
  | none => PyVal.pybool false
  | some l => PyVal.pyarr l

/-- The `u_color` population step for one distance modulus (lines 111-122):
start from `False`, read the lookup table when a path is configured, and
fall back to the on-the-fly `signalColor` result whenever the entry has no
truthy element. -/
noncomputable def uColorStep (lutConfigured : Bool) (lutResult : Option (List ℝ))
    (onTheFly : List ℝ) : PyVal :=
  let v0 := PyVal.pybool false
  let v1 := if lutConfigured then readColorLUT lutResult else v0
  if pyAny v1 = false then PyVal.pyarr onTheFly else v1

/-- The loop over the distance modulus grid (lines 108-122), populating one
`u_color` entry per distance modulus. -/
noncomputable def precomputeUColorArray (dms : List ℝ) (lutConfigured : Bool)
    (lutRead : ℝ → Option (List ℝ)) (signalColorAt : ℝ → List ℝ) : List PyVal :=
  dms.map (fun dm => uColorStep lutConfigured (lutRead dm) (signalColorAt dm))

/-- C7: for every distance modulus in the grid, the `u_color` entry is taken
from the configured lookup table when a path is present and the read result
is truthy; whenever the path is absent, the read fails, or the result is
empty or all-zero, the entry is computed on the fly via `signalColor`; and
in all cases the precompute loop leaves every entry populated with an
array — never with the initial `False`. -/
theorem claim_C7 (dms : List ℝ) (lutConfigured : Bool)
    (lutRead : ℝ → Option (List ℝ)) (signalColorAt : ℝ → List ℝ) :
    (∀ (dm : ℝ) (l : List ℝ), lutConfigured = true → lutRead dm = some l →
      pyAny (PyVal.pyarr l) = true →
      uColorStep lutConfigured (lutRead dm) (signalColorAt dm) = PyVal.pyarr l)
    ∧ (∀ dm : ℝ,
      (lutConfigured = false ∨ lutRead dm = none
        ∨ pyAny (readColorLUT (lutRead dm)) = false) →
      uColorStep lutConfigured (lutRead dm) (signalColorAt dm)
        = PyVal.pyarr (signalColorAt dm))
    ∧ (∀ v ∈ precomputeUColorArray dms lutConfigured lutRead signalColorAt,
      ∃ l, v = PyVal.pyarr l) := by
  have hstep : ∀ dm : ℝ, ∃ l, uColorStep lutConfigured (lutRead dm) (signalColorAt dm)
      = PyVal.pyarr l := by
    intro dm
    unfold uColorStep
    cases hc : lutConfigured with
    | false => exact ⟨signalColorAt dm, by simp [pyAny]⟩
    | true =>
        cases hread : lutRead dm with
        | none => exact ⟨signalColorAt dm, by simp [readColorLUT, pyAny]⟩
        | some l =>
            cases hA : pyAny (PyVal.pyarr l) with
            | false => exact ⟨signalColorAt dm, by simp [readColorLUT, hA]⟩
            | true => exact ⟨l, by simp [readColorLUT, hA]⟩
  refine ⟨?_, ?_, ?_⟩
  · intro dm l hc hread hany
    unfold uColorStep
    rw [hc, hread]
    simp [readColorLUT, hany]
  · intro dm h
    unfold uColorStep
    rcases h with hc | hread | hfalsy
    · rw [hc]
      simp [pyAny]
    · cases hc : lutConfigured with
      | false => simp [pyAny]
      | true =>
          rw [hread]
          simp [readColorLUT, pyAny]
    · cases hc : lutConfigured with
      | false => simp [pyAny]
      | true => simp [hfalsy]
  · intro v hv
    unfold precomputeUColorArray at hv
    rcases List.mem_map.mp hv with ⟨dm, _, hdm⟩
    rw [← hdm]
    exact hstep dm

/-- Witness for C7: with no configured path the entry is the on-the-fly
array; with a configured path and a truthy table row the entry is the
table's array; an entry of the two-modulus precompute loop is populated
with an array. -/
theorem claim_C7_witness :
    uColorStep false ((fun _ : ℝ => (none : Option (List ℝ))) 16) ((fun _ : ℝ => [(42 : ℝ)]) 16)
      = PyVal.pyarr ((fun _ : ℝ => [(42 : ℝ)]) 16)
    ∧ uColorStep true ((fun _ : ℝ => some [(7 : ℝ)]) 16) ((fun _ : ℝ => [(42 : ℝ)]) 16)
      = PyVal.pyarr [(7 : ℝ)]
    ∧ ∃ l, uColorStep true ((fun _ : ℝ => some [(7 : ℝ)]) 16) ((fun _ : ℝ => [(42 : ℝ)]) 16)
        = PyVal.pyarr l := by
  have h1 := claim_C7 [16, 17] false (fun _ => none) (fun _ => [(42 : ℝ)])
  have h2 := claim_C7 [16, 17] true (fun _ => some [(7 : ℝ)]) (fun _ => [(42 : ℝ)])
  refine ⟨h1.2.1 16 (Or.inl rfl), h2.1 16 [(7 : ℝ)] rfl rfl (by simp [pyAny]), ?_⟩
  refine h2.2.2 _ ?_
  unfold precomputeUColorArray
  simp

/-!
Embedding of `Likelihood.gridSearch` (likelihood.py lines 301-412), for the
log-likelihood and richness result arrays the determinism claim concerns.
The `full_pdf` branch (lines 369-392) writes only the confidence-bound
arrays and diagnostic output, not these two arrays, and the narrowed
single-pixel invocation mode returns early instead of populating them; both
are outside the embedded path (`coords is None`, `full_pdf` false).

The source mutates shared instance state in every iteration (`kernel.lon`,
`kernel.lat`, `self.u`, `self.f`, `self.angsep_sparse`,
`self.angsep_object`) and reads each of those fields only after writing it
in the same iteration; the embedding threads that scratch state explicitly,
so that determinism with respect to the scratch left over from any earlier
work is a statable property.
-/

/-- The state `gridSearch` reads but never writes: the products of
`precomputeGridSearch` (`u_color_array`,
`observable_fraction_sparse_array`, `b`), ROI geometry (per-target-pixel
angular separation rows, pixel centers, solid angle, region cut), catalog
indexing (`pixel_roi_index`), and the kernel's radial profile
(`kernel.surfaceIntensity`). -/
structure Precomputed where
  distance_modulus_array : List ℝ
  u_color_array : List (List NumF)
  observable_fraction_sparse_array : List (List ℝ)
  angsep : List (List ℝ)
  pixels_target : List ℕ
  centers_lon_target : List ℝ
  centers_lat_target : List ℝ
  pixel_roi_index : List ℕ
  pixel_roi_cut : List Bool
  area_pixel : ℝ
  surfaceIntensity : ℝ → ℝ
  b : List NumF

/-- The mutable per-grid-point scratch state (instance attributes written
then read inside one loop iteration). -/
structure Scratch where
  kernel_lon : ℝ
  kernel_lat : ℝ
  angsep_sparse : List ℝ
  angsep_object : List ℝ
  u : List NumF
  f : NumF

/-- `numpy.sum(s[cut] * o[cut])`: sum of the elementwise products over the
positions the boolean cut selects. -/
def cutSum (cut : List Bool) (s o : List ℝ) : ℝ :=
  ((cut.zip (s.zip o)).filter (fun x => x.1)).foldl (fun acc x => acc + x.2.1 * x.2.2) 0

/-- The `(log_likelihood, richness)` stored for one grid cell (lines
344-366): the precomputed angular separation row is sliced, the kernel
surface intensity evaluated, `u = area_pixel * surface_intensity * u_color`
and `f = area_pixel * sum(surface_intensity[cut] * observable_fraction[cut])`
formed, and `maximizeLogLikelihood` run. -/
noncomputable def gridCellResult (pre : Precomputed)
    (vtx : List NumF → List NumF → NumF) (tol : NumF) (fuel : ℕ)
    (ii jj : ℕ) : Option (NumF × NumF) :=
  let angsep_sparse := pre.angsep.getD jj []
  let surface_intensity_sparse := angsep_sparse.map pre.surfaceIntensity
  let surface_intensity_object :=
    pre.pixel_roi_index.map (fun k => surface_intensity_sparse.getD k 0)
  let u := List.zipWith (fun s c => NumF.mul (NumF.fin (pre.area_pixel * s)) c)
    surface_intensity_object (pre.u_color_array.getD ii [])
  let f := NumF.fin (pre.area_pixel * cutSum pre.pixel_roi_cut surface_intensity_sparse
    (pre.observable_fraction_sparse_array.getD ii []))
  (maximizeLogLikelihood vtx u pre.b f tol fuel).map
    (fun res => (MaxResult.ll res, MaxResult.richness res))

/-- The scratch state as one grid cell leaves it; every field is computed
from the precomputed state alone, since the source overwrites each scratch
attribute before reading it in the iteration. -/
noncomputable def gridCellScratch (pre : Precomputed) (ii jj : ℕ) : Scratch :=
  let angsep_sparse := pre.angsep.getD jj []
  let surface_intensity_sparse := angsep_sparse.map pre.surfaceIntensity
  let surface_intensity_object :=
    pre.pixel_roi_index.map (fun k => surface_intensity_sparse.getD k 0)
  { kernel_lon := pre.centers_lon_target.getD jj 0
    kernel_lat := pre.centers_lat_target.getD jj 0
    angsep_sparse := angsep_sparse
    angsep_object := pre.pixel_roi_index.map (fun k => angsep_sparse.getD k 0)
    u := List.zipWith (fun s c => NumF.mul (NumF.fin (pre.area_pixel * s)) c)
      surface_intensity_object (pre.u_color_array.getD ii [])
    f := NumF.fin (pre.area_pixel * cutSum pre.pixel_roi_cut surface_intensity_sparse
      (pre.observable_fraction_sparse_array.getD ii [])) }

/-- One step of the inner loop over target pixels (lines 338-366). -/
noncomputable def gridInnerStep (pre : Precomputed)
    (vtx : List NumF → List NumF → NumF) (tol : NumF) (fuel : ℕ) (ii : ℕ)
    (acc : List (Option (NumF × NumF)) × Scratch) (jj : ℕ) :
    List (Option (NumF × NumF)) × Scratch :=
  (acc.1 ++ [gridCellResult pre vtx tol fuel ii jj], gridCellScratch pre ii jj)

/-- One step of the outer loop over distance moduli (lines 328-412),
collecting the inner loop's result row. -/
noncomputable def gridOuterStep (pre : Precomputed)
    (vtx : List NumF → List NumF → NumF) (tol : NumF) (fuel : ℕ)
    (acc : List (List (Option (NumF × NumF))) × Scratch) (ii : ℕ) :
    List (List (Option (NumF × NumF))) × Scratch :=
  let inner := (List.range pre.pixels_target.length).foldl
    (gridInnerStep pre vtx tol fuel ii) ([], acc.2)
  (acc.1 ++ [inner.1], inner.2)

/-- `Likelihood.gridSearch`: the `(log_likelihood, richness)` result arrays
indexed `[distance modulus][target pixel]`, together with the final scratch
state. -/
noncomputable def gridSearch (pre : Precomputed)
    (vtx : List NumF → List NumF → NumF) (tol : NumF) (fuel : ℕ) (scr : Scratch) :
    List (List (Option (NumF × NumF))) × Scratch :=
  (List.range pre.distance_modulus_array.length).foldl
    (gridOuterStep pre vtx tol fuel) ([], scr)

lemma gridInner_fold_eq (pre : Precomputed)
    (vtx : List NumF → List NumF → NumF) (tol : NumF) (fuel : ℕ) (ii : ℕ) :
    ∀ (l : List ℕ) (a : List (Option (NumF × NumF))) (s1 s2 : Scratch),
    (l.foldl (gridInnerStep pre vtx tol fuel ii) (a, s1)).1
      = (l.foldl (gridInnerStep pre vtx tol fuel ii) (a, s2)).1 := by
  intro l
  induction l with
  | nil => intro a s1 s2; rfl
  | cons jj l ih =>
      intro a s1 s2
      simp only [List.foldl_cons]
      exact ih _ _ _

lemma gridOuter_fold_eq (pre : Precomputed)
    (vtx : List NumF → List NumF → NumF) (tol : NumF) (fuel : ℕ) :
    ∀ (lo : List ℕ) (r : List (List (Option (NumF × NumF)))) (s1 s2 : Scratch),
    (lo.foldl (gridOuterStep pre vtx tol fuel) (r, s1)).1
      = (lo.foldl (gridOuterStep pre vtx tol fuel) (r, s2)).1 := by
  intro lo
  induction lo with
  | nil => intro r s1 s2; rfl
  | cons ii lo ih =>
      intro r s1 s2
      simp only [List.foldl_cons]
      have hstep : ∀ (r' : List (List (Option (NumF × NumF)))) (s' : Scratch),
          gridOuterStep pre vtx tol fuel (r', s') ii
          = (r' ++ [((List.range pre.pixels_target.length).foldl
                (gridInnerStep pre vtx tol fuel ii) ([], s')).1],
             ((List.range pre.pixels_target.length).foldl
                (gridInnerStep pre vtx tol fuel ii) ([], s')).2) := fun _ _ => rfl
      rw [hstep r s1, hstep r s2,
        gridInner_fold_eq pre vtx tol fuel ii (List.range pre.pixels_target.length) [] s1 s2]
      exact ih _ _ _

/-- C8: the grid search is deterministic over the precomputed state: two
runs with the same precomputed inputs (catalog indexing, kernel profile,
isochrone-derived arrays, distance-modulus grid) produce identical
log-likelihood / richness result arrays, whatever mutable scratch state each
run starts from — every scratch attribute is overwritten from the
precomputed state before it is read. -/
theorem claim_C8 (pre : Precomputed) (vtx : List NumF → List NumF → NumF)
    (tol : NumF) (fuel : ℕ) (scr1 scr2 : Scratch) :
    (gridSearch pre vtx tol fuel scr1).1 = (gridSearch pre vtx tol fuel scr2).1 := by
  unfold gridSearch
  exact gridOuter_fold_eq pre vtx tol fuel _ [] scr1 scr2
